import Mathlib

/-!
Shallow embedding of the Column Mapping & Reconciliation Engine of
`reconciliation/views.py` (Stock-Reco): the numeric cleanup helper
`_clean_numeric`, the matcher `reconcile_oriental`, the dispatcher
`run_reconcile_by_bank` and the mapping suggestor `auto_map_columns`,
together with theorems settling the specification's claims about them.

Modelling conventions:
* Python numbers are modelled by `ℚ`; `Value.num q isFloat` keeps the
  int/float distinction that `_clean_numeric` makes. `None` is
  `Value.null`, strings are `Value.str`.
* Python string primitives are modelled on `List Char` in ASCII scope:
  `str.strip` by `Char.isWhitespace`, `str.lower`/`str.upper` by
  `Char.toLower`/`Char.toUpper`, and the regex class `\d` by
  `Char.isDigit`.  The claims only exercise ASCII data.
* Python string comparison (used by `sorted`) is code-point
  lexicographic; it is modelled by `lexLt`.
* A pandas DataFrame is a list of column names plus rows of cells
  (`DataSet`); the frame operations `reconcile_oriental` performs
  (`key in df.columns`, `df[key].astype(str)`, `df[df[key] == k]`,
  `.iloc[0].get(prem)`) are modelled by `keyStrings`, `rowsWithKey` and
  `premOf`.
-/

attribute [local semireducible] Rat.add Rat.sub Rat.mul Rat.inv

/-- A cell value as the engine sees it: Python `None`, an `int`
(`isFloat := false`) or `float` (`isFloat := true`) carried as an exact
rational, or a string. -/
inductive Value where
  | null : Value
  | num (q : ℚ) (isFloat : Bool) : Value
  | str (s : String) : Value
deriving DecidableEq

/-- Python `s.strip()` (ASCII whitespace). -/
def stripWS (cs : List Char) : List Char :=
  ((cs.dropWhile Char.isWhitespace).reverse.dropWhile Char.isWhitespace).reverse

/-- The characters kept by the cleanup regex `[^\d\.\-]` replacement:
digits, the dot and the minus sign survive. -/
def keepChar (c : Char) : Bool := c.isDigit || c == '.' || c == '-'

/-- `re.sub` applied to `str(x).strip()` for a string cell `x`. -/
def cleanChars (s : String) : List Char := (stripWS s.data).filter keepChar

/-- Decimal value of a digit string. -/
def digitsVal (cs : List Char) : ℕ := cs.foldl (fun n c => 10 * n + (c.toNat - 48)) 0

/-- An unsigned run of at least one digit, as `int` accepts after an
optional sign. -/
def pyIntCore (u : List Char) : Option ℕ :=
  if !u.isEmpty && u.all Char.isDigit then some (digitsVal u) else none

/-- Python `int(s)` on a stripped string made of digits, `.` and `-`:
an optional leading `-` followed by at least one digit, nothing else. -/
def parsePyInt (t : List Char) : Option ℤ :=
  match t with
  | [] => none
  | c :: rest =>
    if c == '-' then (pyIntCore rest).map (fun n => -(Int.ofNat n))
    else (pyIntCore (c :: rest)).map (fun n => Int.ofNat n)

/-- The unsigned part of a `float` literal made of digits and dots:
either a digit run, or digits around a single `.` with at least one
digit in total.  The value is the exact decimal rational. -/
def pyFloatCore (u : List Char) : Option ℚ :=
  if u.contains '.' then
    let d1 := u.takeWhile (fun c => c != '.')
    let d2 := (u.dropWhile (fun c => c != '.')).tail
    if !(d2.contains '.') && d1.all Char.isDigit && d2.all Char.isDigit
        && !(d1.isEmpty && d2.isEmpty) then
      some ((digitsVal (d1 ++ d2) : ℚ) / ((10 ^ d2.length : ℕ) : ℚ))
    else none
  else if !u.isEmpty && u.all Char.isDigit then some ((digitsVal u : ℚ))
  else none

/-- Python `float(s)` on a stripped string made of digits, `.` and `-`
(no exponent or letters can survive the character strip): an optional
leading `-`, then the unsigned part. -/
def parsePyFloat (t : List Char) : Option ℚ :=
  match t with
  | [] => none
  | c :: rest =>
    if c == '-' then (pyFloatCore rest).map (fun q => -q)
    else pyFloatCore (c :: rest)

/-- `_clean_numeric` from `reconciliation/views.py`: `None` and numbers
pass through; a string is stripped, reduced to digits/`.`/`-`, the
results `''`, `'.'`, `'-'` become `None`; otherwise `float` is tried when
a dot is present and `int` otherwise, with a final `float` retry;
unparsable values become `None` (the function never raises). -/
def _clean_numeric : Value → Value
  | .null => .null
  | .num q f => .num q f
  | .str s =>
    let t := cleanChars s
    if t = [] ∨ t = ['.'] ∨ t = ['-'] then .null
    else
      let first : Option Value :=
        if t.contains '.' then (parsePyFloat t).map (fun q => .num q true)
        else (parsePyInt t).map (fun n => .num (Int.cast n) false)
      match first with
      | some v => v
      | none =>
        match parsePyFloat t with
        | some q => .num q true
        | none => .null

/-- A DataFrame: ordered column names and rows of cells (the cell of row
`r` in the j-th column sits at position j of `r`).  Column names are
unique within a frame. -/
structure DataSet where
  cols : List String
  rows : List (List Value)
deriving DecidableEq

/-- The cell of row `r` under column `c` for a frame with columns
`cols`; absent positions read as null. -/
def cellAt (cols : List String) (r : List Value) (c : String) : Value :=
  match cols.findIdx? (fun x => x == c) with
  | some i => r.getD i .null
  | none => .null

/-- The join key column used by `reconcile_oriental`. -/
def keyField : String := "Policy Number"

/-- The compared amount column used by `reconcile_oriental`. -/
def premField : String := "Gross Premium"

/-- Python `str(x)` for cells, used only to build the key universe
(`df[key].astype(str)`).  `str` leaves strings unchanged, prints `None`
as the word None and integers in decimal.  Binary floats are not
modelled: an integral float prints with a trailing `.0` and any other
rational by its reduced fraction; the claims only exercise string-valued
key cells, where this function is exact. -/
def pyStr : Value → String
  | .null => "None"
  | .str s => s
  | .num q false => toString q.num
  | .num q true => if q.den = 1 then toString q.num ++ ".0" else toString q

/-- Python `cell == k` for a string `k` (the row filter
`df[df.get(key, "") == k]`): only an equal string compares equal to `k`;
numbers and `None` never equal a string. -/
def pyEqStr (v : Value) (k : String) : Bool :=
  match v with
  | .str s => s == k
  | _ => false

/-- `list(df[key].astype(str))`, or `[]` when the key column is absent
(the Python code builds `set()` then; `keysList` does the dedup). -/
def keyStrings (df : DataSet) : List String :=
  if keyField ∈ df.cols then df.rows.map (fun r => pyStr (cellAt df.cols r keyField))
  else []

/-- Python string `<`: code-point lexicographic order. -/
def lexLt : List Char → List Char → Bool
  | [], [] => false
  | [], _ :: _ => true
  | _ :: _, [] => false
  | a :: as, b :: bs => if a < b then true else if b < a then false else lexLt as bs

/-- Python `<` on strings. -/
def strLt (s t : String) : Bool := lexLt s.data t.data

/-- Insertion step of sorting by Python `<`. -/
def insertKey (x : String) : List String → List String
  | [] => [x]
  | y :: ys => if strLt x y then x :: y :: ys else y :: insertKey x ys

/-- `sorted(a_keys | b_keys)`: the distinct keys of both frames in
ascending Python string order. -/
def keysList (dfA dfB : DataSet) : List String :=
  ((keyStrings dfA ++ keyStrings dfB).dedup).foldr insertKey []

/-- `dfA[dfA.get(key, "") == k] if key in dfA.columns else None`:
`none` models the Python `None`, `some rs` the filtered frame. -/
def rowsWithKey (df : DataSet) (k : String) : Option (List (List Value)) :=
  if keyField ∈ df.cols then
    some (df.rows.filter (fun r => pyEqStr (cellAt df.cols r keyField) k))
  else none

/-- `rowx is None or rowx.empty`. -/
def frameEmpty : Option (List (List Value)) → Bool
  | none => true
  | some l => l.isEmpty

/-- `_clean_numeric(...)` collapsed to the numeric value the comparisons
see (Python `int` and `float` compare by value). -/
def cleanedQ (v : Value) : Option ℚ :=
  match _clean_numeric v with
  | .num q _ => some q
  | _ => none

/-- `_clean_numeric(rowx.iloc[0].get(prem)) if (rowx is not None and not
rowx.empty and prem in rowx.columns) else None`. -/
def premOf (df : DataSet) (rx : Option (List (List Value))) : Option ℚ :=
  match rx with
  | some (r :: _) => if premField ∈ df.cols then cleanedQ (cellAt df.cols r premField) else none
  | _ => none

/-- A discrepancy record appended to `results["diffs"]`. -/
structure Diff where
  policy : String
  a : Option ℚ
  b : Option ℚ
deriving DecidableEq

/-- What one iteration of the key loop of `reconcile_oriental` does to
the summary. -/
inductive Outcome where
  | missA : Outcome
  | missB : Outcome
  | skipped : Outcome
  | matched : Outcome
  | mismatched (d : Diff) : Outcome
deriving DecidableEq

/-- The body of the `for k in keys` loop of `reconcile_oriental`:
missing-side checks first, then premium extraction, the both-null skip,
and the tolerance comparison
`pa == pb or abs(pa - pb) <= max(1e-9, abs(pa) * tol_pct)`. -/
def classifyKey (dfA dfB : DataSet) (tol : ℚ) (k : String) : Outcome :=
  let ra := rowsWithKey dfA k
  let rb := rowsWithKey dfB k
  if frameEmpty ra && !frameEmpty rb then .missA
  else if frameEmpty rb && !frameEmpty ra then .missB
  else
    let pa := premOf dfA ra
    let pb := premOf dfB rb
    match pa, pb with
    | none, none => .skipped
    | some a, some b =>
      if a = b ∨ |a - b| ≤ max (1 / 1000000000) (|a| * tol) then .matched
      else .mismatched ⟨k, some a, some b⟩
    | _, _ => .mismatched ⟨k, pa, pb⟩

/-- The `results` dictionary of `reconcile_oriental`; the field `matched`
models the counter named matches in the source (that word is a Lean
keyword). -/
structure Summary where
  matched : ℕ
  mismatches : ℕ
  missing_in_A : ℕ
  missing_in_B : ℕ
  diffs : List Diff
deriving DecidableEq

/-- Apply one loop iteration's outcome to the summary counters. -/
def applyOutcome (s : Summary) : Outcome → Summary
  | .missA => { s with missing_in_A := s.missing_in_A + 1 }
  | .missB => { s with missing_in_B := s.missing_in_B + 1 }
  | .skipped => s
  | .matched => { s with matched := s.matched + 1 }
  | .mismatched d => { s with mismatches := s.mismatches + 1, diffs := s.diffs ++ [d] }

def Outcome.isMatched : Outcome → Bool
  | .matched => true
  | _ => false

def Outcome.isMism : Outcome → Bool
  | .mismatched _ => true
  | _ => false

def Outcome.isMissA : Outcome → Bool
  | .missA => true
  | _ => false

def Outcome.isMissB : Outcome → Bool
  | .missB => true
  | _ => false

def Outcome.diffOf : Outcome → Option Diff
  | .mismatched d => some d
  | _ => none

/-- The `params` dictionary, modelled as an association list holding the
numeric entries the matcher reads (`params.get("amount_tolerance", 1.0)`);
`Option` distinguishes passing `None` (the default) from a dict, and an
empty dict is falsy in Python just like `None`. -/
abbrev MatchParams := List (String × ℚ)

/-- `tol_pct = 0.01; if params: tol_pct = float(params.get("amount_tolerance", 1.0))/100.0`. -/
def tolOf (params : Option MatchParams) : ℚ :=
  match params with
  | none => 1 / 100
  | some l => if l.isEmpty then 1 / 100 else ((l.lookup "amount_tolerance").getD 1) / 100

/-- The key loop of `reconcile_oriental` at a fixed fractional tolerance. -/
def reconcileCore (dfA dfB : DataSet) (tol : ℚ) : Summary :=
  (keysList dfA dfB).foldl (fun s k => applyOutcome s (classifyKey dfA dfB tol k)) ⟨0, 0, 0, 0, []⟩

/-- `reconcile_oriental(dfA, dfB, params)` from `reconciliation/views.py`. -/
def reconcile_oriental (dfA dfB : DataSet) (params : Option MatchParams) : Summary :=
  reconcileCore dfA dfB (tolOf params)

/-- `reconcile_generic` just delegates to `reconcile_oriental`. -/
def reconcile_generic (dfA dfB : DataSet) (params : Option MatchParams) : Summary :=
  reconcile_oriental dfA dfB params

/-- `run_reconcile_by_bank(job, dfA, dfB, params)`: the bank identifier
comes from `job.company.bank_identifier`, with the literal GENERIC
substituted when the job or its company is missing (`none` here); it is
upper-cased and dispatched over the four known banks, anything else
falling back to the generic policy. -/
def run_reconcile_by_bank (bank : Option String) (dfA dfB : DataSet)
    (params : Option MatchParams) : Summary :=
  let b := (bank.getD "GENERIC").data.map Char.toUpper
  if b = "ORIENTAL".data then reconcile_oriental dfA dfB params
  else if b = "MAGMA".data then reconcile_generic dfA dfB params
  else if b = "RSA".data then reconcile_generic dfA dfB params
  else if b = "ICICI".data then reconcile_generic dfA dfB params
  else reconcile_generic dfA dfB params

/-- Dataset A of the boundary example: one policy P1 with premium 100. -/
def dsA1 : DataSet := ⟨["Policy Number", "Gross Premium"], [[.str "P1", .num 100 true]]⟩

/-- Dataset B of the boundary example, premium 101 (inside 1%). -/
def dsB1 : DataSet := ⟨["Policy Number", "Gross Premium"], [[.str "P1", .num 101 true]]⟩

/-- Dataset B of the boundary example, premium 101.01 (just outside 1%). -/
def dsB2 : DataSet :=
  ⟨["Policy Number", "Gross Premium"], [[.str "P1", .num (10101 / 100) true]]⟩

/-- Dataset A of the end-to-end scenario: P1 at 100.00, P2 at 50.00. -/
def dsA4 : DataSet :=
  ⟨["Policy Number", "Gross Premium"],
   [[.str "P1", .num 100 true], [.str "P2", .num 50 true]]⟩

/-- Dataset B of the end-to-end scenario: P1 at 100.00, P3 at 75.00. -/
def dsB4 : DataSet :=
  ⟨["Policy Number", "Gross Premium"],
   [[.str "P1", .num 100 true], [.str "P3", .num 75 true]]⟩

/-- Python `str.lower` on the character list (ASCII scope). -/
def lowerChars (cs : List Char) : List Char := cs.map Char.toLower

/-- Leading-segment test used to define the substring test. -/
def chPre : List Char → List Char → Bool
  | [], _ => true
  | _ :: _, [] => false
  | c :: cs, d :: ds => c == d && chPre cs ds

/-- Python `n in h` for strings: `n` occurs contiguously in `h` (the
empty string occurs in everything). -/
def chSub (n h : List Char) : Bool :=
  match h with
  | [] => chPre n []
  | d :: hs => chPre n (d :: hs) || chSub n hs

/-- Array read with a dummy default (all reads below are in bounds). -/
def bget (b : Array Char) (j : Nat) : Char := b.getD j ' '

/-- The `b2j` position lists of `SequenceMatcher`: ascending indices at
which `c` occurs in `b` (no junk: every position is kept). -/
def positionsOf (b : Array Char) (c : Char) : List Nat :=
  (List.range b.size).filter (fun j => bget b j == c)

/-- The dynamic-programming scan of `find_longest_match`: for each `i`,
walk the positions of `a[i]` in `b` within `[blo, bhi)`, extend runs
recorded in the previous row's `j2len`, and remember the first block
reaching each new best size (scan order: `i` ascending, then `j`
ascending). -/
def flmScan (a b : Array Char) (blo bhi : Nat) :
    List Nat → List (Nat × Nat) → Nat × Nat × Nat → Nat × Nat × Nat
  | [], _, best => best
  | i :: is, j2len, best =>
    let js := (positionsOf b (bget a i)).filter (fun j => blo ≤ j && j < bhi)
    let step := fun (st : List (Nat × Nat) × (Nat × Nat × Nat)) (j : Nat) =>
      let k := (if j = 0 then 0 else (j2len.lookup (j - 1)).getD 0) + 1
      let best1 := if st.2.2.2 < k then (i + 1 - k, j + 1 - k, k) else st.2
      ((j, k) :: st.1, best1)
    let res := js.foldl step ([], best)
    flmScan a b blo bhi is res.1 res.2

/-- The first post-scan extension loop of `find_longest_match` (with an
empty junk set the guard `not isbjunk(...)` is always true). -/
def extendLeft (a b : Array Char) (alo blo : Nat) : Nat → Nat × Nat × Nat → Nat × Nat × Nat
  | 0, best => best
  | fuel + 1, (i, j, k) =>
    if alo < i && blo < j && (bget a (i - 1) == bget b (j - 1)) then
      extendLeft a b alo blo fuel (i - 1, j - 1, k + 1)
    else (i, j, k)

/-- The second post-scan extension loop of `find_longest_match`. -/
def extendRight (a b : Array Char) (ahi bhi : Nat) : Nat → Nat × Nat × Nat → Nat × Nat × Nat
  | 0, best => best
  | fuel + 1, (i, j, k) =>
    if i + k < ahi && j + k < bhi && (bget a (i + k) == bget b (j + k)) then
      extendRight a b ahi bhi fuel (i, j, k + 1)
    else (i, j, k)

/-- `SequenceMatcher.find_longest_match(alo, ahi, blo, bhi)` with no junk
(column names are far below the autojunk threshold of 200 characters, so
the junk sets are empty and the two junk-extension loops never run). -/
def findLongestMatch (a b : Array Char) (alo ahi blo bhi : Nat) : Nat × Nat × Nat :=
  let best := flmScan a b blo bhi (List.range' alo (ahi - alo)) [] (alo, blo, 0)
  let best := extendLeft a b alo blo best.1 best
  extendRight a b ahi bhi ahi best

/-- Total size of the blocks `get_matching_blocks` collects: recursive
splitting around each longest match (the fuel bounds the recursion depth,
which shrinks `ahi - alo` at every level). -/
def matchTotal (a b : Array Char) : Nat → Nat → Nat → Nat → Nat → Nat
  | 0, _, _, _, _ => 0
  | fuel + 1, alo, ahi, blo, bhi =>
    let m := findLongestMatch a b alo ahi blo bhi
    let i := m.1
    let j := m.2.1
    let k := m.2.2
    if k = 0 then 0
    else
      k + (if alo < i && blo < j then matchTotal a b fuel alo i blo j else 0)
        + (if i + k < ahi && j + k < bhi then matchTotal a b fuel (i + k) ahi (j + k) bhi else 0)

/-- `SequenceMatcher(None, x, w).ratio()`: `2M / (len(x) + len(w))` where
`M` is the total matched size, and 1 when both are empty; `x` is the
candidate (`seq1`), `w` the target word (`seq2`). -/
def simScore (x w : List Char) : ℚ :=
  if x.length + w.length = 0 then 1
  else
    ((2 * matchTotal x.toArray w.toArray (x.length + 1) 0 x.length 0 w.length : ℕ) : ℚ) /
      ((x.length + w.length : ℕ) : ℚ)

/-- The `(ratio, candidate)` pairs `get_close_matches(word, poss, 1, 0.6)`
keeps, in candidate order.  The `real_quick_ratio` and `quick_ratio`
pre-filters are upper bounds of `ratio`, so filtering by the final
`ratio >= cutoff` test alone accepts exactly the same candidates. -/
def closeCandidates (w : List Char) (poss : List (List Char)) : List (ℚ × List Char) :=
  poss.filterMap (fun x => if 3 / 5 ≤ simScore x w then some (simScore x w, x) else none)

/-- `heapq.nlargest(1, result)` on `(ratio, string)` pairs: the largest
pair, ordered by ratio and then by code-point string order; when two
pairs are fully equal the earlier one is kept (`nlargest` is stable). -/
def bestOf : List (ℚ × List Char) → Option (ℚ × List Char)
  | [] => none
  | p :: rest =>
    match bestOf rest with
    | none => some p
    | some q => if p.1 < q.1 ∨ (p.1 = q.1 ∧ lexLt p.2 q.2 = true) then some q else some p

/-- `lowerB = {c.lower(): c for c in colsB}` followed by `lowerB[x]`:
the last column of B whose lowercase form is `x` (later dict entries
overwrite earlier ones); the fallback is never reached, since the
suggestor only looks up lowercased elements of `colsB`. -/
def lookupLast (colsB : List String) (x : List Char) : String :=
  (colsB.reverse.find? (fun c => lowerChars c.data == x)).getD ""

/-- `a.strip().lower()` for the column of A being mapped. -/
def aLowOf (a : String) : List Char := lowerChars (stripWS a.data)

/-- The substring test of the first branch:
`a_low in b.lower() or b.lower() in a_low`. -/
def substrTest (aLow : List Char) (b : String) : Bool :=
  chSub aLow (lowerChars b.data) || chSub (lowerChars b.data) aLow

/-- The value `auto_map_columns` assigns to one column `a` of A: the
first column of B passing the substring test, else the best close match
of ratio at least 0.6 mapped back through `lowerB`, else the empty
string. -/
def mapOne (a : String) (colsB : List String) : String :=
  let aLow := aLowOf a
  match colsB.filter (substrTest aLow) with
  | c :: _ => c
  | [] =>
    match bestOf (closeCandidates aLow (colsB.map (fun b => lowerChars b.data))) with
    | some rx => lookupLast colsB rx.2
    | none => ""

/-- `auto_map_columns(colsA, colsB)` as an association list in `colsA`
order (the Python dict's keys are the columns of A in order; duplicate
names would receive the same value, so the association list carries the
same information). -/
def auto_map_columns (colsA colsB : List String) : List (String × String) :=
  colsA.map (fun a => (a, mapOne a colsB))

/-- The key column is present and every key cell of the frame is a
string, as the normalizer guarantees for `Policy Number` via
`_clean_text`. -/
def normKeys (df : DataSet) : Prop :=
  ∀ r ∈ df.rows, ∃ s, cellAt df.cols r keyField = .str s

theorem lexLt_trans {a b c : List Char} (h1 : lexLt a b = true) (h2 : lexLt b c = true) :
    lexLt a c = true := by
  induction a generalizing b c with
  | nil =>
    cases b with
    | nil => simp [lexLt] at h1
    | cons b0 bs =>
      cases c with
      | nil => simp [lexLt] at h2
      | cons c0 cs => simp [lexLt]
  | cons a0 as ih =>
    cases b with
    | nil => simp [lexLt] at h1
    | cons b0 bs =>
      cases c with
      | nil => simp [lexLt] at h2
      | cons c0 cs =>
        unfold lexLt at h1 h2 ⊢
        by_cases hab : a0 < b0
        · by_cases hbc : b0 < c0
          · rw [if_pos (lt_trans hab hbc)]
          · rw [if_neg hbc] at h2
            by_cases hcb : c0 < b0
            · rw [if_pos hcb] at h2; cases h2
            · have hbeq : b0 = c0 := le_antisymm (le_of_not_lt hcb) (le_of_not_lt hbc)
              rw [← hbeq, if_pos hab]
        · rw [if_neg hab] at h1
          by_cases hba : b0 < a0
          · rw [if_pos hba] at h1; cases h1
          · have haeq : a0 = b0 := le_antisymm (le_of_not_lt hba) (le_of_not_lt hab)
            rw [if_neg hba] at h1
            by_cases hac : a0 < c0
            · rw [if_pos hac]
            · rw [if_neg hac]
              by_cases hca : c0 < a0
              · rw [if_pos hca]
                rw [haeq] at hac hca
                rw [if_neg hac, if_pos hca] at h2
                cases h2
              · rw [if_neg hca]
                rw [haeq] at hac hca
                rw [if_neg hac, if_neg hca] at h2
                exact ih h1 h2

theorem lexLt_connex {a b : List Char} (h : a ≠ b) :
    lexLt a b = true ∨ lexLt b a = true := by
  induction a generalizing b with
  | nil =>
    cases b with
    | nil => exact absurd rfl h
    | cons b0 bs => left; simp [lexLt]
  | cons a0 as ih =>
    cases b with
    | nil => right; simp [lexLt]
    | cons b0 bs =>
      unfold lexLt
      by_cases hab : a0 < b0
      · left; rw [if_pos hab]
      · by_cases hba : b0 < a0
        · right; rw [if_pos hba]
        · have heq : a0 = b0 := le_antisymm (le_of_not_lt hba) (le_of_not_lt hab)
          subst heq
          have htl : as ≠ bs := fun he => h (by rw [he])
          rw [if_neg hab, if_neg hab, if_neg hab, if_neg hab]
          exact ih htl

theorem strLt_trans {a b c : String} (h1 : strLt a b = true) (h2 : strLt b c = true) :
    strLt a c = true := lexLt_trans h1 h2

theorem strLt_connex {a b : String} (h : a ≠ b) :
    strLt a b = true ∨ strLt b a = true := by
  refine lexLt_connex (fun hd => h ?_)
  cases a; cases b; exact congrArg String.mk hd

theorem mem_insertKey {x a : String} : ∀ {l : List String},
    a ∈ insertKey x l ↔ a = x ∨ a ∈ l := by
  intro l
  induction l with
  | nil => simp [insertKey]
  | cons y ys ih =>
    unfold insertKey
    by_cases h : strLt x y = true
    · simp [h]
    · rw [if_neg h]
      simp only [List.mem_cons, ih]
      tauto

theorem pairwise_insertKey {x : String} : ∀ {l : List String},
    l.Pairwise (fun p q => strLt p q = true) → x ∉ l →
    (insertKey x l).Pairwise (fun p q => strLt p q = true) := by
  intro l
  induction l with
  | nil => intro _ _; simp [insertKey]
  | cons y ys ih =>
    intro hp hx
    unfold insertKey
    by_cases h : strLt x y = true
    · rw [if_pos h]
      refine List.Pairwise.cons ?_ hp
      intro z hz
      rcases List.mem_cons.mp hz with rfl | hz2
      · exact h
      · exact strLt_trans h (List.rel_of_pairwise_cons hp hz2)
    · rw [if_neg h]
      have hxy : x ≠ y := fun he => hx (by rw [he]; exact List.mem_cons_self _ _)
      have hyx : strLt y x = true := by
        rcases strLt_connex hxy with h1 | h1
        · exact absurd h1 h
        · exact h1
      refine List.Pairwise.cons ?_ (ih hp.of_cons (fun hm => hx (List.mem_cons_of_mem _ hm)))
      intro z hz
      rcases mem_insertKey.mp hz with rfl | hz2
      · exact hyx
      · exact List.rel_of_pairwise_cons hp hz2

theorem mem_sortKeys {a : String} : ∀ {l : List String},
    a ∈ l.foldr insertKey [] ↔ a ∈ l := by
  intro l
  induction l with
  | nil => simp
  | cons x ys ih => simp [List.foldr_cons, mem_insertKey, ih]

theorem pairwise_sortKeys : ∀ {l : List String}, l.Nodup →
    (l.foldr insertKey []).Pairwise (fun p q => strLt p q = true) := by
  intro l
  induction l with
  | nil => intro _; simp
  | cons x ys ih =>
    intro h
    rw [List.foldr_cons]
    exact pairwise_insertKey (ih h.of_cons)
      (fun hm => (List.nodup_cons.mp h).1 (mem_sortKeys.mp hm))

/-- The visited key list is strictly ascending in Python string order. -/
theorem keysList_pairwise (dfA dfB : DataSet) :
    (keysList dfA dfB).Pairwise (fun p q => strLt p q = true) :=
  pairwise_sortKeys (List.nodup_dedup _)

theorem mem_keysList {dfA dfB : DataSet} {k : String} :
    k ∈ keysList dfA dfB ↔ k ∈ keyStrings dfA ∨ k ∈ keyStrings dfB := by
  unfold keysList
  rw [mem_sortKeys, List.mem_dedup, List.mem_append]

theorem foldl_matched (f : String → Outcome) : ∀ (ks : List String) (s : Summary),
    (ks.foldl (fun acc k => applyOutcome acc (f k)) s).matched =
      s.matched + ks.countP (fun k => (f k).isMatched) := by
  intro ks
  induction ks with
  | nil => intro s; simp
  | cons k ks ih =>
    intro s
    rw [List.foldl_cons, ih, List.countP_cons]
    cases h : f k <;>
      simp [applyOutcome, Outcome.isMatched] <;> omega

theorem foldl_mismatches (f : String → Outcome) : ∀ (ks : List String) (s : Summary),
    (ks.foldl (fun acc k => applyOutcome acc (f k)) s).mismatches =
      s.mismatches + ks.countP (fun k => (f k).isMism) := by
  intro ks
  induction ks with
  | nil => intro s; simp
  | cons k ks ih =>
    intro s
    rw [List.foldl_cons, ih, List.countP_cons]
    cases h : f k <;>
      simp [applyOutcome, Outcome.isMism] <;> omega

theorem foldl_missingA (f : String → Outcome) : ∀ (ks : List String) (s : Summary),
    (ks.foldl (fun acc k => applyOutcome acc (f k)) s).missing_in_A =
      s.missing_in_A + ks.countP (fun k => (f k).isMissA) := by
  intro ks
  induction ks with
  | nil => intro s; simp
  | cons k ks ih =>
    intro s
    rw [List.foldl_cons, ih, List.countP_cons]
    cases h : f k <;>
      simp [applyOutcome, Outcome.isMissA] <;> omega

theorem foldl_missingB (f : String → Outcome) : ∀ (ks : List String) (s : Summary),
    (ks.foldl (fun acc k => applyOutcome acc (f k)) s).missing_in_B =
      s.missing_in_B + ks.countP (fun k => (f k).isMissB) := by
  intro ks
  induction ks with
  | nil => intro s; simp
  | cons k ks ih =>
    intro s
    rw [List.foldl_cons, ih, List.countP_cons]
    cases h : f k <;>
      simp [applyOutcome, Outcome.isMissB] <;> omega

theorem foldl_diffs (f : String → Outcome) : ∀ (ks : List String) (s : Summary),
    (ks.foldl (fun acc k => applyOutcome acc (f k)) s).diffs =
      s.diffs ++ ks.filterMap (fun k => (f k).diffOf) := by
  intro ks
  induction ks with
  | nil => intro s; simp
  | cons k ks ih =>
    intro s
    rw [List.foldl_cons, ih, List.filterMap_cons]
    cases h : f k <;> simp [applyOutcome, Outcome.diffOf]

@[simp] theorem isMissA_missA : Outcome.missA.isMissA = true := rfl
@[simp] theorem isMissA_missB : Outcome.missB.isMissA = false := rfl
@[simp] theorem isMissB_missB : Outcome.missB.isMissB = true := rfl
@[simp] theorem isMissB_missA : Outcome.missA.isMissB = false := rfl
@[simp] theorem isMatched_matched : Outcome.matched.isMatched = true := rfl
@[simp] theorem diffOf_missA : Outcome.missA.diffOf = none := rfl
@[simp] theorem diffOf_missB : Outcome.missB.diffOf = none := rfl
@[simp] theorem diffOf_skipped : Outcome.skipped.diffOf = none := rfl
@[simp] theorem diffOf_matched : Outcome.matched.diffOf = none := rfl
@[simp] theorem diffOf_mismatched (d : Diff) : (Outcome.mismatched d).diffOf = some d := rfl
@[simp] theorem isMism_missA : Outcome.missA.isMism = false := rfl
@[simp] theorem isMism_missB : Outcome.missB.isMism = false := rfl
@[simp] theorem isMism_skipped : Outcome.skipped.isMism = false := rfl
@[simp] theorem isMism_matched : Outcome.matched.isMism = false := rfl
@[simp] theorem isMism_mismatched (d : Diff) : (Outcome.mismatched d).isMism = true := rfl

theorem length_filterMap_diffOf (f : String → Outcome) : ∀ ks : List String,
    (ks.filterMap (fun k => (f k).diffOf)).length = ks.countP (fun k => (f k).isMism) := by
  intro ks
  induction ks with
  | nil => simp
  | cons k ks ih =>
    rw [List.filterMap_cons, List.countP_cons]
    cases h : f k <;> simp [ih]

/-- Every discrepancy record `classifyKey` emits carries the key it was
emitted for. -/
theorem classify_diff_policy (dfA dfB : DataSet) (tol : ℚ) (k : String) (d : Diff)
    (h : classifyKey dfA dfB tol k = .mismatched d) : d.policy = k := by
  simp only [classifyKey] at h
  split at h
  · cases h
  · split at h
    · cases h
    · split at h
      · cases h
      · split at h
        · cases h
        · injection h with h2
          rw [← h2]
      · injection h with h2
        rw [← h2]

theorem map_policy_filterMap (dfA dfB : DataSet) (tol : ℚ) : ∀ ks : List String,
    ((ks.filterMap (fun k => (classifyKey dfA dfB tol k).diffOf)).map Diff.policy) =
      ks.filter (fun k => (classifyKey dfA dfB tol k).isMism) := by
  intro ks
  induction ks with
  | nil => simp
  | cons k ks ih =>
    rw [List.filterMap_cons, List.filter_cons]
    cases h : classifyKey dfA dfB tol k with
    | mismatched d =>
      have hp : d.policy = k := classify_diff_policy dfA dfB tol k d h
      simp [ih, hp]
    | _ => simp [ih]

/-- A key outside the key-string multiset of a frame selects no rows
(whether or not the key column exists): a string key only matches string
cells, and every string cell's `str` image is in `keyStrings`. -/
theorem frameEmpty_of_not_mem (df : DataSet) (k : String) (h : k ∉ keyStrings df) :
    frameEmpty (rowsWithKey df k) = true := by
  unfold rowsWithKey
  by_cases hc : keyField ∈ df.cols
  · rw [if_pos hc]
    unfold frameEmpty
    rw [List.isEmpty_iff, List.filter_eq_nil_iff]
    intro r hr hpe
    apply h
    unfold keyStrings
    rw [if_pos hc]
    refine List.mem_map.mpr ⟨r, hr, ?_⟩
    cases cv : cellAt df.cols r keyField with
    | str s =>
      rw [cv] at hpe
      simp only [pyEqStr, beq_iff_eq] at hpe
      rw [pyStr, hpe]
    | null => rw [cv] at hpe; simp [pyEqStr] at hpe
    | num q f => rw [cv] at hpe; simp [pyEqStr] at hpe
  · rw [if_neg hc]
    rfl

/-- A key listed in `keyStrings` of a frame with string key cells
selects at least one row. -/
theorem frameEmpty_of_mem (df : DataSet) (k : String) (hc : keyField ∈ df.cols)
    (hn : normKeys df) (h : k ∈ keyStrings df) :
    frameEmpty (rowsWithKey df k) = false := by
  unfold keyStrings at h
  rw [if_pos hc] at h
  obtain ⟨r, hr, hpr⟩ := List.mem_map.mp h
  obtain ⟨s, hs⟩ := hn r hr
  rw [hs] at hpr
  simp only [pyStr] at hpr
  unfold rowsWithKey
  rw [if_pos hc]
  unfold frameEmpty
  have hrm : r ∈ df.rows.filter (fun r => pyEqStr (cellAt df.cols r keyField) k) := by
    rw [List.mem_filter]
    refine ⟨hr, ?_⟩
    rw [hs]
    simp [pyEqStr, hpr]
  cases hf : df.rows.filter (fun r => pyEqStr (cellAt df.cols r keyField) k) with
  | nil => rw [hf] at hrm; cases hrm
  | cons _ _ => rfl

/-- **C2** (corrected).  The claim says that when the key field is
entirely absent from both datasets the matcher raises a hard
configuration error and never returns a summary.  The code has no such
check and no raise path: with the key column missing on both sides the
key universe is empty, the loop body never runs, and the all-zero
summary is returned.  This closed counterexample evaluates the matcher
on two concrete frames lacking a Policy Number column and shows it
returns that summary. -/
theorem no_key_columns_cex :
    reconcile_oriental ⟨["X"], [[.str "1"]]⟩ ⟨["Y"], [[.str "2"]]⟩ none =
      ⟨0, 0, 0, 0, []⟩ := by decide

/-- **C2** (amended).  When the Policy Number column is absent from both
input frames, `reconcile_oriental` returns the all-zero summary (no
matches, no mismatches, no missing counts, no discrepancy records)
instead of raising. -/
theorem no_key_columns_zero_summary (dfA dfB : DataSet) (p : Option MatchParams)
    (hA : keyField ∉ dfA.cols) (hB : keyField ∉ dfB.cols) :
    reconcile_oriental dfA dfB p = ⟨0, 0, 0, 0, []⟩ := by
  unfold reconcile_oriental reconcileCore keysList keyStrings
  rw [if_neg hA, if_neg hB]
  rfl

/-- Witness for `no_key_columns_zero_summary` at concrete frames. -/
theorem no_key_columns_zero_summary_witness :
    reconcile_oriental ⟨["A"], []⟩ ⟨["B"], []⟩ (some []) = ⟨0, 0, 0, 0, []⟩ :=
  no_key_columns_zero_summary _ _ _ (by decide) (by decide)

/-- **C3**.  `amount_tolerance` is taken in whole-percentage units: the
matcher runs the core loop at the fractional tolerance `tolOf params`,
which divides a present `amount_tolerance` entry by 100, substitutes
`1.0 / 100` when the entry is absent from a passed dict, and defaults to
`0.01` when no params are passed (an empty dict is falsy, so it also
yields `0.01`, which equals `1.0 / 100`). -/
theorem tolerance_percent_units :
    (∀ (dfA dfB : DataSet) (p : Option MatchParams),
      reconcile_oriental dfA dfB p = reconcileCore dfA dfB (tolOf p)) ∧
    (∀ (l : MatchParams) (t : ℚ), l.lookup "amount_tolerance" = some t →
      tolOf (some l) = t / 100) ∧
    (∀ l : MatchParams, l.lookup "amount_tolerance" = none → tolOf (some l) = 1 / 100) ∧
    tolOf none = 1 / 100 := by
  refine ⟨fun _ _ _ => rfl, ?_, ?_, rfl⟩
  · intro l t h
    cases l with
    | nil => cases h
    | cons e es => simp [tolOf, h]
  · intro l h
    cases l with
    | nil => rfl
    | cons e es => simp [tolOf, h]

/-- Witness for `tolerance_percent_units` at a concrete params dict. -/
theorem tolerance_percent_units_witness :
    tolOf (some [("amount_tolerance", (2 : ℚ))]) = 2 / 100 ∧
    tolOf (some [("fuzzy_pct", (80 : ℚ))]) = 1 / 100 :=
  ⟨tolerance_percent_units.2.1 [("amount_tolerance", 2)] 2 (by decide),
   tolerance_percent_units.2.2.1 [("fuzzy_pct", 80)] (by decide)⟩

/-- **C8**.  For every bank identifier (including a missing job or
company, modelled by `none`, and unknown identifiers), the dispatcher
returns exactly the generic reconciliation result: every branch of
`run_reconcile_by_bank` delegates to `reconcile_oriental`, so dispatch
always produces a result. -/
theorem dispatch_generic :
    ∀ (bank : Option String) (dfA dfB : DataSet) (p : Option MatchParams),
      run_reconcile_by_bank bank dfA dfB p = reconcile_oriental dfA dfB p := by
  intro bank dfA dfB p
  simp [run_reconcile_by_bank, reconcile_generic]

/-- **C9**.  Reconciliation is a pure function of its inputs (re-running
it on unchanged inputs gives the same summary term), and its discrepancy
order is fixed: keys are visited in strictly ascending Python string
order, so the policies of the recorded discrepancies are strictly
ascending as well. -/
theorem reconcile_deterministic :
    ∀ (dfA dfB : DataSet) (p : Option MatchParams),
      reconcile_oriental dfA dfB p = reconcile_oriental dfA dfB p ∧
      (keysList dfA dfB).Pairwise (fun x y => strLt x y = true) ∧
      ((reconcile_oriental dfA dfB p).diffs.map Diff.policy).Pairwise
        (fun x y => strLt x y = true) := by
  intro dfA dfB p
  refine ⟨rfl, keysList_pairwise dfA dfB, ?_⟩
  have hd : (reconcile_oriental dfA dfB p).diffs =
      (keysList dfA dfB).filterMap
        (fun k => (classifyKey dfA dfB (tolOf p) k).diffOf) := by
    unfold reconcile_oriental reconcileCore
    rw [foldl_diffs]
    rfl
  rw [hd, map_policy_filterMap]
  exact (keysList_pairwise dfA dfB).filter _

/-- **C1**.  For a key present in both frames whose first matching rows
carry non-null Gross Premium values `a` (from A) and `b` (from B), the
matcher classifies the key as a match exactly when `a = b` or
`abs(a - b) <= max(1e-9, abs(a) * tol)` for the internal fractional
tolerance `tol`, and otherwise as a mismatch recording both values.  At
tolerance 1% the boundary pair 100 vs 101 matches while 100 vs 101.01 is
a mismatch with both values recorded. -/
theorem match_rule_tolerance :
    (∀ (dfA dfB : DataSet) (tol : ℚ) (k : String) (a b : ℚ),
      premOf dfA (rowsWithKey dfA k) = some a →
      premOf dfB (rowsWithKey dfB k) = some b →
      ((classifyKey dfA dfB tol k = .matched ↔
          (a = b ∨ |a - b| ≤ max (1 / 1000000000) (|a| * tol))) ∧
        (classifyKey dfA dfB tol k = .mismatched ⟨k, some a, some b⟩ ↔
          ¬(a = b ∨ |a - b| ≤ max (1 / 1000000000) (|a| * tol))))) ∧
    reconcile_oriental dsA1 dsB1 (some [("amount_tolerance", 1)]) = ⟨1, 0, 0, 0, []⟩ ∧
    reconcile_oriental dsA1 dsB2 (some [("amount_tolerance", 1)]) =
      ⟨0, 1, 0, 0, [⟨"P1", some 100, some (10101 / 100)⟩]⟩ := by
  refine ⟨?_, by decide, by decide⟩
  intro dfA dfB tol k a b ha hb
  obtain ⟨rA, restA, hra⟩ : ∃ rA restA, rowsWithKey dfA k = some (rA :: restA) := by
    rcases hr : rowsWithKey dfA k with _ | l
    · rw [hr] at ha; simp [premOf] at ha
    · cases l with
      | nil => rw [hr] at ha; simp [premOf] at ha
      | cons rA restA => exact ⟨rA, restA, rfl⟩
  obtain ⟨rB, restB, hrb⟩ : ∃ rB restB, rowsWithKey dfB k = some (rB :: restB) := by
    rcases hr : rowsWithKey dfB k with _ | l
    · rw [hr] at hb; simp [premOf] at hb
    · cases l with
      | nil => rw [hr] at hb; simp [premOf] at hb
      | cons rB restB => exact ⟨rB, restB, rfl⟩
  rw [hra] at ha
  rw [hrb] at hb
  simp only [classifyKey, hra, hrb, ha, hb, frameEmpty, List.isEmpty_cons, Bool.not_false,
    Bool.false_and, Bool.if_false_left, Bool.and_true]
  by_cases hc : a = b ∨ |a - b| ≤ max (1 / 1000000000) (|a| * tol)
  · rw [if_pos hc]
    exact ⟨⟨fun _ => hc, fun _ => rfl⟩,
      ⟨fun h => Outcome.noConfusion h, fun h => absurd hc h⟩⟩
  · rw [if_neg hc]
    exact ⟨⟨fun h => Outcome.noConfusion h, fun h => absurd h hc⟩,
      ⟨fun _ => hc, fun _ => rfl⟩⟩

/-- Witness for the general part of `match_rule_tolerance`: the boundary
pair at tolerance 1% classifies as a match. -/
theorem match_rule_tolerance_witness :
    classifyKey dsA1 dsB1 (1 / 100) "P1" = .matched :=
  ((match_rule_tolerance.1 dsA1 dsB1 (1 / 100) "P1" 100 101 (by decide) (by decide)).1).mpr
    (by decide)

/-- **C4**.  A key present only in dataset B is classified missing-in-A
and makes the `missing_in_A` counter positive; a key present only in A
is classified missing-in-B symmetrically.  On the end-to-end scenario
(A holds P1 at 100 and P2 at 50; B holds P1 at 100 and P3 at 75;
tolerance 1%) the summary is matches 1, mismatches 0, missing_in_A 1,
missing_in_B 1. -/
theorem missing_key_counts :
    (∀ (dfA dfB : DataSet) (p : Option MatchParams) (k : String),
      keyField ∈ dfB.cols → normKeys dfB → k ∉ keyStrings dfA → k ∈ keyStrings dfB →
      classifyKey dfA dfB (tolOf p) k = .missA ∧
      0 < (reconcile_oriental dfA dfB p).missing_in_A) ∧
    (∀ (dfA dfB : DataSet) (p : Option MatchParams) (k : String),
      keyField ∈ dfA.cols → normKeys dfA → k ∉ keyStrings dfB → k ∈ keyStrings dfA →
      classifyKey dfA dfB (tolOf p) k = .missB ∧
      0 < (reconcile_oriental dfA dfB p).missing_in_B) ∧
    reconcile_oriental dsA4 dsB4 (some [("amount_tolerance", 1)]) = ⟨1, 0, 1, 1, []⟩ := by
  refine ⟨?_, ?_, by decide⟩
  · intro dfA dfB p k hc hn hka hkb
    have hea := frameEmpty_of_not_mem dfA k hka
    have heb := frameEmpty_of_mem dfB k hc hn hkb
    have hcl : classifyKey dfA dfB (tolOf p) k = .missA := by
      simp [classifyKey, hea, heb]
    refine ⟨hcl, ?_⟩
    unfold reconcile_oriental reconcileCore
    rw [foldl_missingA]
    simp only [Nat.zero_add]
    exact List.countP_pos_iff.mpr ⟨k, mem_keysList.mpr (Or.inr hkb), by simp [hcl]⟩
  · intro dfA dfB p k hc hn hkb hka
    have heb := frameEmpty_of_not_mem dfB k hkb
    have hea := frameEmpty_of_mem dfA k hc hn hka
    have hcl : classifyKey dfA dfB (tolOf p) k = .missB := by
      simp [classifyKey, hea, heb]
    refine ⟨hcl, ?_⟩
    unfold reconcile_oriental reconcileCore
    rw [foldl_missingB]
    simp only [Nat.zero_add]
    exact List.countP_pos_iff.mpr ⟨k, mem_keysList.mpr (Or.inl hka), by simp [hcl]⟩

/-- The end-to-end scenario frame B has string key cells. -/
theorem normKeys_dsB4 : normKeys dsB4 := by
  intro r hr
  have h2 : r = [Value.str "P1", Value.num 100 true] ∨
      r = [Value.str "P3", Value.num 75 true] := by
    simpa [dsB4] using hr
  rcases h2 with rfl | rfl
  · exact ⟨"P1", by decide⟩
  · exact ⟨"P3", by decide⟩

/-- Witness for the general part of `missing_key_counts`: P3 is present
only in frame B of the scenario and classifies missing-in-A. -/
theorem missing_key_counts_witness :
    classifyKey dsA4 dsB4 (tolOf (some [("amount_tolerance", 1)])) "P3" = .missA ∧
    0 < (reconcile_oriental dsA4 dsB4 (some [("amount_tolerance", 1)])).missing_in_A :=
  missing_key_counts.1 dsA4 dsB4 (some [("amount_tolerance", 1)]) "P3" (by decide)
    normKeys_dsB4 (by decide) (by decide)

/-- **C5**.  For a key present in both frames: when the first matching
row's Gross Premium is null on both sides the key is skipped, and
skipping leaves every counter and the diffs list unchanged; when it is
null on exactly one side the key is a mismatch whose discrepancy record
carries `none` on the null side, and each mismatch appends exactly that
one record. -/
theorem null_premium_rule :
    (∀ (dfA dfB : DataSet) (tol : ℚ) (k : String) (rA : List Value)
        (restA : List (List Value)) (rB : List Value) (restB : List (List Value)),
      rowsWithKey dfA k = some (rA :: restA) →
      rowsWithKey dfB k = some (rB :: restB) →
      ((cellAt dfA.cols rA premField = .null → cellAt dfB.cols rB premField = .null →
          classifyKey dfA dfB tol k = .skipped) ∧
        (cellAt dfA.cols rA premField = .null →
          ∀ b : ℚ, premOf dfB (rowsWithKey dfB k) = some b →
            classifyKey dfA dfB tol k = .mismatched ⟨k, none, some b⟩) ∧
        (cellAt dfB.cols rB premField = .null →
          ∀ a : ℚ, premOf dfA (rowsWithKey dfA k) = some a →
            classifyKey dfA dfB tol k = .mismatched ⟨k, some a, none⟩))) ∧
    (∀ s : Summary, applyOutcome s .skipped = s) ∧
    (∀ (s : Summary) (d : Diff), applyOutcome s (.mismatched d) =
      { s with mismatches := s.mismatches + 1, diffs := s.diffs ++ [d] }) := by
  refine ⟨?_, fun s => rfl, fun s d => rfl⟩
  intro dfA dfB tol k rA restA rB restB hra hrb
  have hpa0 : cellAt dfA.cols rA premField = .null →
      premOf dfA (some (rA :: restA)) = none := by
    intro hnull
    simp only [premOf]
    by_cases hc : premField ∈ dfA.cols
    · rw [if_pos hc, hnull]; rfl
    · rw [if_neg hc]
  have hpb0 : cellAt dfB.cols rB premField = .null →
      premOf dfB (some (rB :: restB)) = none := by
    intro hnull
    simp only [premOf]
    by_cases hc : premField ∈ dfB.cols
    · rw [if_pos hc, hnull]; rfl
    · rw [if_neg hc]
  refine ⟨?_, ?_, ?_⟩
  · intro hna hnb
    simp [classifyKey, hra, hrb, hpa0 hna, hpb0 hnb, frameEmpty]
  · intro hna b hb
    rw [hrb] at hb
    simp [classifyKey, hra, hrb, hpa0 hna, hb, frameEmpty]
  · intro hnb a ha
    rw [hra] at ha
    simp [classifyKey, hra, hrb, hpb0 hnb, ha, frameEmpty]

/-- Witness for `null_premium_rule`: a null premium on side A against a
present premium on side B yields a mismatch recording the null side. -/
theorem null_premium_rule_witness :
    classifyKey ⟨["Policy Number", "Gross Premium"], [[.str "P1", .null]]⟩ dsB1
      (1 / 100) "P1" = .mismatched ⟨"P1", none, some 101⟩ :=
  (null_premium_rule.1 ⟨["Policy Number", "Gross Premium"], [[.str "P1", .null]]⟩ dsB1
    (1 / 100) "P1" [.str "P1", .null] [] [.str "P1", .num 101 true] []
    (by decide) (by decide)).2.1 (by decide) 101 (by decide)

/-- Without a dot, the `float` grammar accepts exactly what the `int`
grammar accepts (sign plus digit run), so the retry cannot rescue an
`int` failure. -/
theorem pyFloatCore_no_dot (u : List Char) (hd : u.contains '.' = false) :
    pyFloatCore u = (pyIntCore u).map (fun n => ((n : ℕ) : ℚ)) := by
  unfold pyFloatCore pyIntCore
  simp only [hd, Bool.false_eq_true, if_false]
  split
  · rfl
  · rfl

theorem parsePyFloat_none (t : List Char) (hd : t.contains '.' = false)
    (hi : parsePyInt t = none) : parsePyFloat t = none := by
  cases t with
  | nil => rfl
  | cons c rest =>
    simp only [parsePyInt] at hi
    simp only [parsePyFloat]
    have hdr : rest.contains '.' = false := by
      rw [List.contains_cons] at hd
      exact (Bool.or_eq_false_iff.mp hd).2
    by_cases hcm : (c == '-') = true
    · rw [if_pos hcm] at hi ⊢
      rw [pyFloatCore_no_dot rest hdr, Option.map_eq_none.mp hi]
      rfl
    · rw [if_neg hcm] at hi ⊢
      rw [pyFloatCore_no_dot _ hd, Option.map_eq_none.mp hi]
      rfl

/-- **C6**.  Numeric cleanup: the worked examples `"₹1,234.50"` to
1234.50, `"-"` to null and `"12"` to the integer 12; a stripped result
that is empty, a lone dot, or entirely dashes yields null; when a value
parses, the float path is taken exactly when the stripped string has a
dot (else the integer path); and the cleanup of a string cell is always
null or a number — it never raises and never returns a string. -/
theorem clean_numeric_rule :
    _clean_numeric (.str "₹1,234.50") = .num (2469 / 2) true ∧
    _clean_numeric (.str "-") = .null ∧
    _clean_numeric (.str "12") = .num 12 false ∧
    (∀ s : String,
      cleanChars s = [] ∨ cleanChars s = ['.'] ∨
        (cleanChars s ≠ [] ∧ ∀ c ∈ cleanChars s, c = '-') →
      _clean_numeric (.str s) = .null) ∧
    (∀ (s : String) (q : ℚ) (f : Bool), _clean_numeric (.str s) = .num q f →
      (f = true ↔ (cleanChars s).contains '.' = true)) ∧
    (∀ s : String, _clean_numeric (.str s) = .null ∨
      ∃ (q : ℚ) (f : Bool), _clean_numeric (.str s) = .num q f) := by
  refine ⟨by decide, by decide, by decide, ?_, ?_, ?_⟩
  · intro s h
    rcases h with h | h | ⟨hne, hall⟩
    · simp only [_clean_numeric]
      rw [if_pos (Or.inl h)]
    · simp only [_clean_numeric]
      rw [if_pos (Or.inr (Or.inl h))]
    · rcases hc : cleanChars s with _ | ⟨c, cs⟩
      · exact absurd hc hne
      · have hcd : c = '-' := hall c (by rw [hc]; exact List.mem_cons_self _ _)
        subst hcd
        cases cs with
        | nil =>
          simp only [_clean_numeric]
          rw [hc]
          rw [if_pos (Or.inr (Or.inr rfl))]
        | cons c2 cs2 =>
          have hcd2 : c2 = '-' :=
            hall c2 (by rw [hc]; exact List.mem_cons_of_mem _ (List.mem_cons_self _ _))
          subst hcd2
          have hnodot : (cleanChars s).contains '.' = false := by
            rw [hc]
            cases hx : (('-' : Char) :: '-' :: cs2).contains '.' with
            | false => rfl
            | true =>
              exfalso
              have hm : ('.' : Char) ∈ ('-' : Char) :: '-' :: cs2 := by simpa using hx
              have h3 := hall '.' (by rw [hc]; exact hm)
              exact absurd h3 (by decide)
          have hint : parsePyInt (cleanChars s) = none := by
            rw [hc]
            simp only [parsePyInt]
            rw [if_pos (by decide)]
            have hcore : pyIntCore ('-' :: cs2) = none := by
              unfold pyIntCore
              have hdig : (('-' : Char) :: cs2).all Char.isDigit = false := by
                rw [List.all_cons]
                rw [show ('-' : Char).isDigit = false from by decide]
                rfl
              rw [hdig]
              rfl
            rw [hcore]
            rfl
          have hfloat := parsePyFloat_none _ hnodot hint
          simp only [_clean_numeric]
          have hcond : ¬(cleanChars s = [] ∨ cleanChars s = ['.'] ∨ cleanChars s = ['-']) := by
            rw [hc]
            intro hor
            rcases hor with h1 | h1 | h1 <;> cases h1
          rw [if_neg hcond]
          simp only [hnodot, Bool.false_eq_true, if_false, hint, hfloat, Option.map_none']
  · intro s q f h
    by_cases h0 : cleanChars s = [] ∨ cleanChars s = ['.'] ∨ cleanChars s = ['-']
    · simp only [_clean_numeric] at h
      rw [if_pos h0] at h
      cases h
    · simp only [_clean_numeric] at h
      rw [if_neg h0] at h
      by_cases hdot : (cleanChars s).contains '.' = true
      · rw [if_pos hdot] at h
        cases hfl : parsePyFloat (cleanChars s) with
        | some q2 =>
          rw [hfl] at h
          simp only [Option.map_some'] at h
          injection h with h1 h2
          rw [← h2]
          exact iff_of_true rfl hdot
        | none =>
          simp only [hfl, Option.map_none'] at h
          cases h
      · rw [if_neg hdot] at h
        rw [Bool.not_eq_true] at hdot
        cases hint : parsePyInt (cleanChars s) with
        | some n =>
          rw [hint] at h
          simp only [Option.map_some'] at h
          injection h with h1 h2
          rw [← h2, hdot]
        | none =>
          have hfl := parsePyFloat_none _ hdot hint
          simp only [hint, Option.map_none', hfl] at h
          cases h
  · intro s
    by_cases h0 : cleanChars s = [] ∨ cleanChars s = ['.'] ∨ cleanChars s = ['-']
    · left
      simp only [_clean_numeric]
      rw [if_pos h0]
    · simp only [_clean_numeric]
      rw [if_neg h0]
      by_cases hdot : (cleanChars s).contains '.' = true
      · rw [if_pos hdot]
        cases hfl : parsePyFloat (cleanChars s) with
        | some q =>
          right
          exact ⟨q, true, by simp [hfl, Option.map_some']⟩
        | none =>
          left
          simp only [hfl, Option.map_none']
      · rw [if_neg hdot]
        rw [Bool.not_eq_true] at hdot
        cases hint : parsePyInt (cleanChars s) with
        | some n =>
          right
          exact ⟨Int.cast n, false, by simp [hint, Option.map_some']⟩
        | none =>
          left
          have hfl := parsePyFloat_none _ hdot hint
          simp only [hint, Option.map_none', hfl]

/-- Witness for `clean_numeric_rule`: a double dash cleans to null, and a
parsed dotted value takes the float path. -/
theorem clean_numeric_rule_witness :
    _clean_numeric (.str "--") = .null ∧ ((true = true) ↔ (cleanChars "1.5").contains '.' = true) :=
  ⟨clean_numeric_rule.2.2.2.1 "--" (Or.inr (Or.inr (by decide))),
   clean_numeric_rule.2.2.2.2.1 "1.5" (3 / 2) true (by decide)⟩

theorem bestOf_none_iff {l : List (ℚ × List Char)} : bestOf l = none ↔ l = [] := by
  cases l with
  | nil => simp [bestOf]
  | cons p rest =>
    simp only [bestOf]
    constructor
    · intro h
      exfalso
      cases hb : bestOf rest with
      | none => simp only [hb] at h; cases h
      | some q =>
        simp only [hb] at h
        by_cases hc : p.1 < q.1 ∨ (p.1 = q.1 ∧ lexLt p.2 q.2 = true)
        · rw [if_pos hc] at h; cases h
        · rw [if_neg hc] at h; cases h
    · intro h; cases h

theorem bestOf_spec : ∀ {l : List (ℚ × List Char)} {p : ℚ × List Char},
    bestOf l = some p → p ∈ l ∧ ∀ q ∈ l, q.1 ≤ p.1 := by
  intro l
  induction l with
  | nil => intro p h; cases h
  | cons r rest ih =>
    intro p h
    unfold bestOf at h
    cases hb : bestOf rest with
    | none =>
      simp only [hb] at h
      injection h with h1
      subst h1
      have hre : rest = [] := bestOf_none_iff.mp hb
      subst hre
      refine ⟨List.mem_cons_self _ _, ?_⟩
      intro q hq
      rcases List.mem_cons.mp hq with rfl | hq2
      · exact le_refl _
      · cases hq2
    | some q0 =>
      simp only [hb] at h
      obtain ⟨hq0, hmax⟩ := ih hb
      by_cases hcond : r.1 < q0.1 ∨ (r.1 = q0.1 ∧ lexLt r.2 q0.2 = true)
      · rw [if_pos hcond] at h
        injection h with h1
        subst h1
        refine ⟨List.mem_cons_of_mem _ hq0, ?_⟩
        intro q hq
        rcases List.mem_cons.mp hq with rfl | hq2
        · rcases hcond with h2 | h2
          · exact le_of_lt h2
          · exact le_of_eq h2.1
        · exact hmax q hq2
      · rw [if_neg hcond] at h
        injection h with h1
        subst h1
        refine ⟨List.mem_cons_self _ _, ?_⟩
        intro q hq
        rcases List.mem_cons.mp hq with rfl | hq2
        · exact le_refl _
        · have hq0le : q0.1 ≤ r.1 := by
            by_cases heq : r.1 < q0.1
            · exact absurd (Or.inl heq) hcond
            · exact le_of_not_lt heq
          exact le_trans (hmax q hq2) hq0le

theorem closeCandidates_mem {w : List Char} {poss : List (List Char)} {r : ℚ}
    {x : List Char} (h : (r, x) ∈ closeCandidates w poss) :
    x ∈ poss ∧ r = simScore x w ∧ 3 / 5 ≤ r := by
  unfold closeCandidates at h
  obtain ⟨y, hy, hfy⟩ := List.mem_filterMap.mp h
  by_cases hc : 3 / 5 ≤ simScore y w
  · rw [if_pos hc] at hfy
    injection hfy with hfy2
    injection hfy2 with ha hb
    subst hb
    subst ha
    exact ⟨hy, rfl, hc⟩
  · rw [if_neg hc] at hfy
    cases hfy

theorem closeCandidates_complete {w : List Char} {poss : List (List Char)} {x : List Char}
    (hx : x ∈ poss) (hs : 3 / 5 ≤ simScore x w) :
    (simScore x w, x) ∈ closeCandidates w poss :=
  List.mem_filterMap.mpr ⟨x, hx, by rw [if_pos hs]⟩

/-- **C7**.  For each column `a` of A (in order), the suggested mapping
assigns the first column of B whose lowercased name contains or is
contained in the stripped lowercase of `a`; with no such column, it
assigns the original column behind the best ratio among B's lowercased
names when that ratio is at least 0.6 (every other lowercased name
scores no higher), and the empty string when every ratio is below
0.6. -/
theorem auto_map_rule :
    ∀ (colsA colsB : List String) (a : String), a ∈ colsA →
      (auto_map_columns colsA colsB).lookup a = some (mapOne a colsB) ∧
      (∀ (c : String) (cs : List String),
        colsB.filter (substrTest (aLowOf a)) = c :: cs → mapOne a colsB = c) ∧
      (colsB.filter (substrTest (aLowOf a)) = [] →
        (∀ (r : ℚ) (x : List Char),
          bestOf (closeCandidates (aLowOf a) (colsB.map (fun b => lowerChars b.data))) =
              some (r, x) →
            r = simScore x (aLowOf a) ∧ 3 / 5 ≤ r ∧
            x ∈ colsB.map (fun b => lowerChars b.data) ∧
            (∀ y ∈ colsB.map (fun b => lowerChars b.data), simScore y (aLowOf a) ≤ r) ∧
            mapOne a colsB = lookupLast colsB x) ∧
        (bestOf (closeCandidates (aLowOf a) (colsB.map (fun b => lowerChars b.data))) =
            none →
          (∀ y ∈ colsB.map (fun b => lowerChars b.data), simScore y (aLowOf a) < 3 / 5) ∧
          mapOne a colsB = "")) := by
  intro colsA colsB a ha
  refine ⟨?_, ?_, ?_⟩
  · unfold auto_map_columns
    induction colsA with
    | nil => cases ha
    | cons a0 as ih =>
      by_cases he : a = a0
      · subst he
        simp [List.lookup]
      · have hne : (a == a0) = false := beq_eq_false_iff_ne.mpr he
        rw [List.map_cons]
        simp only [List.lookup, hne]
        refine ih ?_
        rcases List.mem_cons.mp ha with rfl | h2
        · exact absurd rfl he
        · exact h2
  · intro c cs hf
    simp only [mapOne]
    rw [hf]
  · intro hf
    constructor
    · intro r x hb
      obtain ⟨hmem, hmax⟩ := bestOf_spec hb
      obtain ⟨hxp, hrs, hr⟩ := closeCandidates_mem hmem
      refine ⟨hrs, hr, hxp, ?_, ?_⟩
      · intro y hy
        by_cases hc : 3 / 5 ≤ simScore y (aLowOf a)
        · have := hmax (simScore y (aLowOf a), y) (closeCandidates_complete hy hc)
          exact this
        · exact le_trans (le_of_lt (lt_of_not_le hc)) hr
      · simp only [mapOne]
        rw [hf, hb]
    · intro hb
      have hcc : closeCandidates (aLowOf a) (colsB.map (fun b => lowerChars b.data)) = [] :=
        bestOf_none_iff.mp hb
      constructor
      · intro y hy
        by_cases hc : 3 / 5 ≤ simScore y (aLowOf a)
        · exfalso
          have := closeCandidates_complete hy hc
          rw [hcc] at this
          cases this
        · exact lt_of_not_le hc
      · simp only [mapOne]
        rw [hf, hb]

/-- Witness for `auto_map_rule`: the substring branch maps the spec's
column to its padded uppercase counterpart. -/
theorem auto_map_rule_witness :
    (auto_map_columns ["Policy No"] ["POLICY NO 2"]).lookup "Policy No" =
      some "POLICY NO 2" := by
  have h := auto_map_rule ["Policy No"] ["POLICY NO 2"] "Policy No" (by decide)
  have h2 := h.2.1 "POLICY NO 2" [] (by decide)
  rw [h.1, h2]

/-- **C10**.  In every summary the matcher returns, the length of the
diffs list equals the mismatches counter: each mismatch appends exactly
one discrepancy record and no other outcome appends any. -/
theorem diffs_length_eq_mismatches :
    ∀ (dfA dfB : DataSet) (p : Option MatchParams),
      (reconcile_oriental dfA dfB p).diffs.length =
        (reconcile_oriental dfA dfB p).mismatches := by
  intro dfA dfB p
  unfold reconcile_oriental reconcileCore
  rw [foldl_diffs, foldl_mismatches]
  simp only [List.nil_append, Nat.zero_add]
  rw [length_filterMap_diffOf]
